import Mathlib

/-!
Verification of the riva-ai repository against its design specification.

The repository's resumable workflow orchestrator (the `AuraOrchestratorAgent`
state machine described in the pause/resume architecture document) ships in
this repository only as documentation; the Python modules `core/models.py`,
`core/db.py` and `agents/aura_orchestrator_agent.py` are not present in the
source tree.  The `Aura` namespace therefore contains a model of that
subsystem built from the specification's data model (section 3) and core
algorithm (section 4.3).  The `AuraRoute` and `Dashboard` namespaces embed
TypeScript code that is present in the source tree
(`riva-ui/app/api/aura/route.ts` and `components/StudentDashboard.tsx`).
-/

namespace Aura

/-- Modelled from the spec: the `current_step` enumeration of `WorkflowState`
(`core/models.py` is absent from the tree).  The ordered stage markers are
`SYNCING, ANALYZING, PLANNING, REPORTING` plus the terminal markers
`COMPLETED` and `PAUSED` and the initial marker `NOT_STARTED`.  Section 4.3
requires `PAUSED -> STAGE_k` (resume into whichever stage was next), so the
`PAUSED` marker records how many stages were committed when the pause took
effect. -/
inductive Step where
  | NOT_STARTED
  | SYNCING
  | ANALYZING
  | PLANNING
  | REPORTING
  | COMPLETED
  | PAUSED (lastCommitted : Nat)
deriving DecidableEq

/-- Modelled from the spec: the root `WorkflowState` document persisted per
session (section 3).  One result field per stage, each `none` until its
owning stage has run; stage payloads are opaque to the state machine and are
modelled as strings. -/
structure WorkflowState where
  session_id : String
  current_step : Step
  assignments : Option (List String)
  skill_profile : Option String
  daily_plan : Option (List String)
  report : Option String
  pause_requested : Bool
deriving DecidableEq

/-- The four pipeline stages, in their fixed registered order. -/
inductive Stage where
  | SYNC
  | ANALYZE
  | PLAN
  | REPORT
deriving DecidableEq

/-- 1-based ordinal of a stage in the registered order. -/
def Stage.ord : Stage → Nat
  | .SYNC => 1
  | .ANALYZE => 2
  | .PLAN => 3
  | .REPORT => 4

/-- The `current_step` marker recorded when a stage commits. -/
def Stage.marker : Stage → Step
  | .SYNC => .SYNCING
  | .ANALYZE => .ANALYZING
  | .PLAN => .PLANNING
  | .REPORT => .REPORTING

/-- Modelled from the spec: the fixed, explicit ordered stage list of
section 4.2 (the workflow topology). -/
def stageOrder : List Stage := [Stage.SYNC, Stage.ANALYZE, Stage.PLAN, Stage.REPORT]

/-- Number of stages recorded as fully committed by a `current_step` marker. -/
def stepDone : Step → Nat
  | .NOT_STARTED => 0
  | .SYNCING => 1
  | .ANALYZING => 2
  | .PLANNING => 3
  | .REPORTING => 4
  | .COMPLETED => 4
  | .PAUSED k => k

/-- The committed-stage count recorded inside a `PAUSED` marker (0 for any
other marker). -/
def pausedBound : Step → Nat
  | .PAUSED k => k
  | _ => 0

/-- Whether a marker is the `PAUSED` terminal. -/
def isPaused : Step → Bool
  | .PAUSED _ => true
  | _ => false

/-- Well-formedness of a persisted marker: a pause can only be taken at the
boundary before one of the four stages, so a `PAUSED` marker records at most
three committed stages. -/
def WF (s : WorkflowState) : Bool :=
  decide (pausedBound s.current_step ≤ 3)

/-- Modelled from the spec: `StageError`, the failure a stage's unit of work
may raise (section 7). -/
structure StageError where
  message : String
deriving DecidableEq

/-- Modelled from the spec: the Stage Contract (section 4.2).  Each stage is
an opaque unit of work `run(currentState) -> partialUpdate | StageError`;
the four fields are the external collaborators behind the four registered
stages (`ClassroomSyncAgent`, `SkillMasteryAgent`, `DailyPlannerAgent`,
`ParentInsightAgent`). -/
structure StageImpls where
  sync : WorkflowState → Except StageError (List String)
  analyze : WorkflowState → Except StageError String
  plan : WorkflowState → Except StageError (List String)
  report : WorkflowState → Except StageError String

/-- Stage implementations that never raise `StageError`. -/
structure TotalImpls (impls : StageImpls) : Prop where
  sync : ∀ s, ∃ r, impls.sync s = Except.ok r
  analyze : ∀ s, ∃ r, impls.analyze s = Except.ok r
  plan : ∀ s, ∃ r, impls.plan s = Except.ok r
  report : ∀ s, ∃ r, impls.report s = Except.ok r

/-- Modelled from the spec: the State Store (section 4.1), a durable keyed
document store holding one `WorkflowState` per `session_id` (`core/db.py`
backed by the Firestore collection `workflow_states` in the source docs). -/
abbrev Store := List (String × WorkflowState)

/-- Modelled from the spec: `get(session_id) -> WorkflowState | NotFound`
(`get_workflow_state` in the source docs). -/
def get_workflow_state : Store → String → Option WorkflowState
  | [], _ => none
  | (k, v) :: rest, sid => if k = sid then some v else get_workflow_state rest sid

/-- Modelled from the spec: `put(session_id, state)`, a full-document upsert
(`save_workflow_state` in the source docs).  An existing entry is replaced
in place. -/
def save_workflow_state : Store → String → WorkflowState → Store
  | [], sid, v => [(sid, v)]
  | (k, w) :: rest, sid, v =>
      if k = sid then (k, v) :: rest else (k, w) :: save_workflow_state rest sid v

/-- Modelled from the spec: invoking one stage's unit of work and merging the
fields it owns into the state, marking the stage committed (section 4.3,
step 2c; the merge is a pure function producing the full next state). -/
def runStage (impls : StageImpls) (st : Stage) (s : WorkflowState) :
    Except StageError WorkflowState :=
  match st with
  | .SYNC => (impls.sync s).map fun r =>
      { s with assignments := some r, current_step := Step.SYNCING }
  | .ANALYZE => (impls.analyze s).map fun r =>
      { s with skill_profile := some r, current_step := Step.ANALYZING }
  | .PLAN => (impls.plan s).map fun r =>
      { s with daily_plan := some r, current_step := Step.PLANNING }
  | .REPORT => (impls.report s).map fun r =>
      { s with report := some r, current_step := Step.REPORTING }

/-- Result of one orchestrator invocation: the resulting store, the sequence
of checkpoints written (in order), the stages whose `run` was invoked (in
order), and the outcome returned to the caller. -/
structure RunResult where
  store : Store
  trace : List WorkflowState
  invoked : List Stage
  outcome : Except StageError WorkflowState

/-- Modelled from the spec: the re-entrant step-execution loop of
`run_aura_orchestrator` (section 4.3, step 2, and the source architecture
document's step list).  For each stage in registered order: skip it if
`current_step` already marks it committed; otherwise, if `pause_requested`
is observed, checkpoint the state as `PAUSED` with the flag cleared (the
cleared flag is part of the pause checkpoint so that a later resume is not
immediately re-paused) and return; otherwise invoke the stage, and on
success checkpoint the merged state while on `StageError` return the error
without checkpointing.  When no stage remains, mark `COMPLETED`, checkpoint
and return (section 4.3, step 3). -/
def runStages (impls : StageImpls) (stages : List Stage) (s : WorkflowState)
    (store : Store) : RunResult :=
  match stages with
  | [] =>
      let s' := { s with current_step := Step.COMPLETED }
      ⟨save_workflow_state store s.session_id s', [s'], [], Except.ok s'⟩
  | st :: rest =>
      if st.ord ≤ stepDone s.current_step then
        runStages impls rest s store
      else if s.pause_requested then
        let s' := { s with current_step := Step.PAUSED (stepDone s.current_step),
                           pause_requested := false }
        ⟨save_workflow_state store s.session_id s', [s'], [], Except.ok s'⟩
      else
        match runStage impls st s with
        | .error e => ⟨store, [], [st], Except.error e⟩
        | .ok s' =>
            let r := runStages impls rest s' (save_workflow_state store s'.session_id s')
            ⟨r.store, s' :: r.trace, st :: r.invoked, r.outcome⟩

/-- The fresh state constructed for a session with no stored record. -/
def freshState (session_id : String) : WorkflowState :=
  ⟨session_id, Step.NOT_STARTED, none, none, none, none, false⟩

/-- Modelled from the spec: the `run_aura_orchestrator` entrypoint
(`agents/aura_orchestrator_agent.py` is absent from the tree).  Load the
state for the session; if absent, construct a fresh `NOT_STARTED` state and
immediately checkpoint it before any stage runs (section 4.3, step 1); then
run the step-execution loop over the registered stage order. -/
def run_aura_orchestrator (impls : StageImpls) (session_id : String)
    (store : Store) : RunResult :=
  match get_workflow_state store session_id with
  | some s => runStages impls stageOrder s store
  | none =>
      let s := freshState session_id
      let r := runStages impls stageOrder s (save_workflow_state store session_id s)
      ⟨r.store, s :: r.trace, r.invoked, r.outcome⟩

/-- Modelled from the spec: the pause entrypoint (sections 4.5 and 6), an
out-of-band single-flag update against an existing session's stored state.
Returns whether the session was found. -/
def requestPause (session_id : String) (store : Store) : Store × Bool :=
  match get_workflow_state store session_id with
  | some s => (save_workflow_state store session_id { s with pause_requested := true }, true)
  | none => (store, false)

/-- The per-stage result fields of a state are populated exactly for the
stages that `current_step` marks as committed (spec section 3 invariant). -/
def fieldsOk (s : WorkflowState) : Prop :=
  (s.assignments.isSome = true ↔ 1 ≤ stepDone s.current_step) ∧
  (s.skill_profile.isSome = true ↔ 2 ≤ stepDone s.current_step) ∧
  (s.daily_plan.isSome = true ↔ 3 ≤ stepDone s.current_step) ∧
  (s.report.isSome = true ↔ 4 ≤ stepDone s.current_step)

/-- Stores reachable through the state machine's operations: the empty store,
orchestrator invocations, and out-of-band pause requests. -/
inductive Reachable : Store → Prop where
  | empty : Reachable []
  | run (impls : StageImpls) (sid : String) {st : Store} :
      Reachable st → Reachable (run_aura_orchestrator impls sid st).store
  | pause (sid : String) {st : Store} :
      Reachable st → Reachable (requestPause sid st).1

/-- Legality of one persisted `current_step` update: progress never
decreases; the new marker is either the next stage in the fixed order, a
`PAUSED` marker recording exactly the progress made so far, or `COMPLETED`
once all four stages are committed; and the only ways out of a `PAUSED`
marker are re-pausing at the same point or committing the next pending
stage. -/
def stepUpdateOk (a b : Step) : Prop :=
  stepDone a ≤ stepDone b ∧
  ((∃ st : Stage, b = st.marker ∧ st.ord = stepDone a + 1) ∨
    b = Step.PAUSED (stepDone a) ∨
    (b = Step.COMPLETED ∧ stepDone a = 4)) ∧
  (isPaused a = true →
    (b = Step.PAUSED (pausedBound a) ∨
      ∃ st : Stage, b = st.marker ∧ st.ord = pausedBound a + 1))

/-- The sequence of persisted `current_step` values one invocation touches:
the previously stored value (when the session exists) followed by the
markers of every checkpoint the invocation writes. -/
def runChain (impls : StageImpls) (session_id : String) (store : Store) : List Step :=
  match get_workflow_state store session_id with
  | some s =>
      s.current_step ::
        ((run_aura_orchestrator impls session_id store).trace.map fun x => x.current_step)
  | none =>
      (run_aura_orchestrator impls session_id store).trace.map fun x => x.current_step

/-- A stage list whose ordinals run contiguously from `m + 1` up to the full
pipeline length 4; `stageOrder` satisfies `contiguousFrom 0`. -/
def contiguousFrom : Nat → List Stage → Bool
  | m, [] => m == 4
  | m, st :: rest => (st.ord == m + 1) && contiguousFrom (m + 1) rest

/-- Every state stored in a store is keyed by its own `session_id`, has a
well-formed marker and satisfies the per-stage field invariant. -/
def StoreInv (store : Store) : Prop :=
  ∀ sid s, get_workflow_state store sid = some s →
    s.session_id = sid ∧ WF s = true ∧ fieldsOk s

end Aura

namespace AuraRoute

/-- A JSON value sent back by the Next.js route handler: either the backend's
payload forwarded verbatim, or one of the handler's two error objects (an
`error` message plus a `details` string). -/
inductive JsValue where
  | payload (data : String)
  | errObj (error : String) (details : String)
deriving DecidableEq

/-- An HTTP response produced by `NextResponse.json(body, { status })`; the
status defaults to 200 when the handler passes no option. -/
structure ApiResponse where
  body : JsValue
  status : Nat
deriving DecidableEq

/-- The resolved backend `fetch` response as the handler observes it: the
`ok` flag, the underlying status code, the body as text (`res.text()`), and
the body as JSON (`res.json()`, which throws on invalid JSON). -/
structure BackendResponse where
  ok : Bool
  status : Nat
  text : String
  jsonBody : Except String String

/-- The `POST` handler of `riva-ui/app/api/aura/route.ts` (the try/catch
version at the top of that file).  `reqJson` is the result of
`await req.json()` (error = the parse threw); `fetchRes` is the result of
`await fetch(AURA_BACKEND_URL, ...)` (error = the fetch rejected).  Thrown
errors are modelled by the string the catch block renders via
`String(error)`. -/
def POST (reqJson : Except String String)
    (fetchRes : Except String BackendResponse) : ApiResponse :=
  match reqJson with
  | .error err => ⟨JsValue.errObj "Internal Server Error" err, 500⟩
  | .ok _ =>
      match fetchRes with
      | .error err => ⟨JsValue.errObj "Internal Server Error" err, 500⟩
      | .ok res =>
          if !res.ok then
            ⟨JsValue.errObj "Aura backend failed" res.text, 500⟩
          else
            match res.jsonBody with
            | .error err => ⟨JsValue.errObj "Internal Server Error" err, 500⟩
            | .ok data => ⟨JsValue.payload data, 200⟩

end AuraRoute

namespace Dashboard

/-- An assignment as typed in `components/StudentDashboard.tsx`: `due` and
`state` are optional strings. -/
structure Assignment where
  id : String
  title : String
  subject : String
  due : Option String
  state : Option String
deriving DecidableEq

/-- The `isOld` helper of `components/StudentDashboard.tsx`.  JavaScript
`!dateStr` is true for `undefined` and for the empty string; an unparsable
date gives `NaN`, and every comparison against `NaN` is false, which the
`parseDate = none` branch models.  Millisecond timestamps and the fractional
day difference are modelled over the rationals. -/
def isOld (pastDueDays nowMs : Rat) (parseDate : String → Option Rat) :
    Option String → Bool
  | none => false
  | some d =>
      if d == "" || d == "No due date" then false
      else
        match parseDate d with
        | none => false
        | some dueMs =>
            decide ((nowMs - dueMs) / (1000 * 3600 * 24) > pastDueDays)

/-- The `hasNoDueDate` helper: `!a.due || a.due === "No due date"`. -/
def hasNoDueDate (a : Assignment) : Bool :=
  match a.due with
  | none => true
  | some d => d == "" || d == "No due date"

/-- `currentAssignments`: assignments that are neither old nor missing a due
date. -/
def currentAssignments (pastDueDays nowMs : Rat) (parseDate : String → Option Rat)
    (assignments : List Assignment) : List Assignment :=
  assignments.filter fun a => !isOld pastDueDays nowMs parseDate a.due && !hasNoDueDate a

/-- `noDueAssignments`: assignments missing a due date. -/
def noDueAssignments (assignments : List Assignment) : List Assignment :=
  assignments.filter fun a => hasNoDueDate a

/-- `oldAssignments`: assignments classified old, shown in the Past Due
list. -/
def oldAssignments (pastDueDays nowMs : Rat) (parseDate : String → Option Rat)
    (assignments : List Assignment) : List Assignment :=
  assignments.filter fun a => isOld pastDueDays nowMs parseDate a.due

/-- A concrete date parser used to evaluate the dashboard helpers on sample
data: day `n` of an epoch maps to `n` days in milliseconds. -/
def demoParse : String → Option Rat :=
  fun d => if d = "day0" then some 0 else if d = "day5" then some 432000000 else none

/-- Sample assignments covering the three dashboard buckets. -/
def demoAssignments : List Assignment :=
  [⟨"a1", "Worksheet", "Math", some "day0", none⟩,
   ⟨"a2", "Reading", "English", none, none⟩,
   ⟨"a3", "Quiz", "Science", some "No due date", none⟩,
   ⟨"a4", "Lab", "Science", some "day5", none⟩]

/-- The sample assignment with no due date. -/
def demoNoDue : Assignment := ⟨"a2", "Reading", "English", none, none⟩

end Dashboard

namespace Aura

/-- Stage implementations that all succeed, used to evaluate the model on
concrete sessions. -/
def implsGood : StageImpls :=
  ⟨fun _ => Except.ok ["a1"], fun _ => Except.ok "profile",
   fun _ => Except.ok ["p1"], fun _ => Except.ok "summary"⟩

/-- Stage implementations identical to `implsGood` except that the `PLAN`
stage raises `StageError`. -/
def implsPlanFails : StageImpls :=
  ⟨fun _ => Except.ok ["a1"], fun _ => Except.ok "profile",
   fun _ => Except.error ⟨"plan failed"⟩, fun _ => Except.ok "summary"⟩

/-- A session checkpointed right after its second stage (`ANALYZE`)
committed, with no pause pending. -/
def analyzedState : WorkflowState :=
  ⟨"s1", Step.ANALYZING, some ["a1"], some "profile", none, none, false⟩

/-- A store holding only `analyzedState`. -/
def analyzedStore : Store := [("s1", analyzedState)]

/-- A session paused right after its second stage committed (the pause
checkpoint cleared the flag). -/
def pausedState : WorkflowState :=
  ⟨"s1", Step.PAUSED 2, some ["a1"], some "profile", none, none, false⟩

/-- A store holding only `pausedState`. -/
def pausedStore : Store := [("s1", pausedState)]

/-- A session at `ANALYZING` with a pause requested out of band. -/
def pauseFlaggedState : WorkflowState :=
  ⟨"s1", Step.ANALYZING, some ["a1"], some "profile", none, none, true⟩

/-- A store holding only `pauseFlaggedState`. -/
def pauseFlaggedStore : Store := [("s1", pauseFlaggedState)]

/-- A session that ran to completion. -/
def completedState : WorkflowState :=
  ⟨"s1", Step.COMPLETED, some ["a1"], some "profile", some ["p1"], some "summary", false⟩

/-- A store holding only `completedState`. -/
def completedStore : Store := [("s1", completedState)]

theorem get_put_self (store : Store) (sid : String) (v : WorkflowState) :
    get_workflow_state (save_workflow_state store sid v) sid = some v := by
  induction store with
  | nil => simp [save_workflow_state, get_workflow_state]
  | cons kv rest ih =>
      obtain ⟨k, w⟩ := kv
      by_cases hk : k = sid
      · simp [save_workflow_state, get_workflow_state, hk]
      · simp [save_workflow_state, get_workflow_state, hk, ih]

theorem get_put_ne (store : Store) (sid sid' : String) (v : WorkflowState)
    (h : sid' ≠ sid) :
    get_workflow_state (save_workflow_state store sid v) sid' =
      get_workflow_state store sid' := by
  induction store with
  | nil => simp [save_workflow_state, get_workflow_state, Ne.symm h]
  | cons kv rest ih =>
      obtain ⟨k, w⟩ := kv
      by_cases hk : k = sid
      · subst hk
        simp [save_workflow_state, get_workflow_state, Ne.symm h]
      · simp only [save_workflow_state, if_neg hk, get_workflow_state]
        by_cases hk' : k = sid'
        · simp [hk']
        · simp [hk', ih]

theorem put_self_eq (store : Store) (sid : String) (v : WorkflowState)
    (h : get_workflow_state store sid = some v) :
    save_workflow_state store sid v = store := by
  induction store with
  | nil => simp [get_workflow_state] at h
  | cons kv rest ih =>
      obtain ⟨k, w⟩ := kv
      by_cases hk : k = sid
      · simp only [get_workflow_state, if_pos hk] at h
        obtain rfl : w = v := by injection h
        simp [save_workflow_state, hk]
      · simp only [get_workflow_state, if_neg hk] at h
        simp [save_workflow_state, hk, ih h]

theorem runStage_ok (impls : StageImpls) (st : Stage) (s s' : WorkflowState)
    (h : runStage impls st s = Except.ok s') :
    s'.session_id = s.session_id ∧ s'.pause_requested = s.pause_requested ∧
      s'.current_step = st.marker := by
  cases st
  case SYNC =>
    cases himpl : impls.sync s with
    | error e => rw [runStage, himpl] at h; simp [Except.map] at h
    | ok r =>
        rw [runStage, himpl] at h
        simp only [Except.map, Except.ok.injEq] at h
        subst h
        exact ⟨rfl, rfl, rfl⟩
  case ANALYZE =>
    cases himpl : impls.analyze s with
    | error e => rw [runStage, himpl] at h; simp [Except.map] at h
    | ok r =>
        rw [runStage, himpl] at h
        simp only [Except.map, Except.ok.injEq] at h
        subst h
        exact ⟨rfl, rfl, rfl⟩
  case PLAN =>
    cases himpl : impls.plan s with
    | error e => rw [runStage, himpl] at h; simp [Except.map] at h
    | ok r =>
        rw [runStage, himpl] at h
        simp only [Except.map, Except.ok.injEq] at h
        subst h
        exact ⟨rfl, rfl, rfl⟩
  case REPORT =>
    cases himpl : impls.report s with
    | error e => rw [runStage, himpl] at h; simp [Except.map] at h
    | ok r =>
        rw [runStage, himpl] at h
        simp only [Except.map, Except.ok.injEq] at h
        subst h
        exact ⟨rfl, rfl, rfl⟩

theorem runStages_trace_session_id (impls : StageImpls) (stages : List Stage) :
    ∀ (s : WorkflowState) (store : Store),
      ∀ x ∈ (runStages impls stages s store).trace, x.session_id = s.session_id := by
  induction stages with
  | nil =>
      intro s store x hx
      simp only [runStages, List.mem_singleton] at hx
      subst hx
      rfl
  | cons st rest ih =>
      intro s store x hx
      simp only [runStages] at hx
      by_cases hskip : st.ord ≤ stepDone s.current_step
      · rw [if_pos hskip] at hx
        exact ih s store x hx
      · rw [if_neg hskip] at hx
        by_cases hp : s.pause_requested
        · rw [if_pos hp] at hx
          simp only [List.mem_singleton] at hx
          subst hx
          rfl
        · rw [if_neg hp] at hx
          cases hrun : runStage impls st s with
          | error e => rw [hrun] at hx; simp at hx
          | ok s' =>
              rw [hrun] at hx
              simp only [List.mem_cons] at hx
              rcases hx with rfl | hx
              · exact (runStage_ok impls st s x hrun).1
              · rw [ih s' _ x hx]
                exact (runStage_ok impls st s s' hrun).1

theorem runStages_store_eq (impls : StageImpls) (stages : List Stage) :
    ∀ (s : WorkflowState) (store : Store),
      (runStages impls stages s store).store =
        (runStages impls stages s store).trace.foldl
          (fun acc x => save_workflow_state acc x.session_id x) store := by
  induction stages with
  | nil =>
      intro s store
      simp [runStages]
  | cons st rest ih =>
      intro s store
      simp only [runStages]
      by_cases hskip : st.ord ≤ stepDone s.current_step
      · rw [if_pos hskip]
        exact ih s store
      · rw [if_neg hskip]
        by_cases hp : s.pause_requested
        · rw [if_pos hp]
          simp
        · rw [if_neg hp]
          cases hrun : runStage impls st s with
          | error e => simp
          | ok s' =>
              simp only [List.foldl_cons]
              exact ih s' _

theorem foldl_put_get (l : List WorkflowState) :
    ∀ (store : Store) (sid : String) (v : WorkflowState),
      get_workflow_state
          (l.foldl (fun acc x => save_workflow_state acc x.session_id x) store) sid =
        some v →
      (v ∈ l ∧ v.session_id = sid) ∨ get_workflow_state store sid = some v := by
  induction l with
  | nil => intro store sid v h; exact Or.inr h
  | cons x l ih =>
      intro store sid v h
      rcases ih _ _ _ h with ⟨hm, hs⟩ | hrest
      · exact Or.inl ⟨List.mem_cons_of_mem _ hm, hs⟩
      · by_cases hx : sid = x.session_id
        · subst hx
          rw [get_put_self] at hrest
          obtain rfl : x = v := by injection hrest
          exact Or.inl ⟨List.mem_cons_self _ _, rfl⟩
        · rw [get_put_ne _ _ _ _ hx] at hrest
          exact Or.inr hrest

theorem foldl_put_get_isSome (l : List WorkflowState) :
    ∀ (store : Store) (sid : String) (v0 : WorkflowState),
      get_workflow_state store sid = some v0 → (∀ x ∈ l, x.session_id = sid) →
      ∃ v, get_workflow_state
          (l.foldl (fun acc x => save_workflow_state acc x.session_id x) store) sid =
        some v := by
  induction l with
  | nil => intro store sid v0 h _; exact ⟨v0, h⟩
  | cons x l ih =>
      intro store sid v0 h hall
      have hx : x.session_id = sid := hall x (List.mem_cons_self _ _)
      refine ih _ _ x ?_ fun y hy => hall y (List.mem_cons_of_mem _ hy)
      simp only []
      rw [hx, get_put_self]

theorem contiguousFrom_le_four (stages : List Stage) :
    ∀ m, contiguousFrom m stages = true → m ≤ 4 := by
  induction stages with
  | nil =>
      intro m h
      simp only [contiguousFrom, beq_iff_eq] at h
      omega
  | cons st rest ih =>
      intro m h
      simp only [contiguousFrom, Bool.and_eq_true, beq_iff_eq] at h
      have := ih (m + 1) h.2
      omega

theorem stageOrder_contiguous : contiguousFrom 0 stageOrder = true := by decide

theorem stepDone_marker (st : Stage) : stepDone st.marker = st.ord := by
  cases st <;> rfl

theorem stepDone_le_four (s : WorkflowState) (h : WF s = true) :
    stepDone s.current_step ≤ 4 := by
  simp only [WF, decide_eq_true_eq] at h
  cases hc : s.current_step <;> simp_all [stepDone, pausedBound]
  omega

theorem WF_merge (impls : StageImpls) (st : Stage) (s s' : WorkflowState)
    (hrun : runStage impls st s = Except.ok s') : WF s' = true := by
  have h := (runStage_ok impls st s s' hrun).2.2
  cases st <;> simp [WF, h, Stage.marker, pausedBound]

theorem fieldsOk_merge (impls : StageImpls) (st : Stage) (s s' : WorkflowState)
    (hrun : runStage impls st s = Except.ok s')
    (hde : stepDone s.current_step + 1 = st.ord) (hfo : fieldsOk s) : fieldsOk s' := by
  obtain ⟨f1, f2, f3, f4⟩ := hfo
  cases st
  case SYNC =>
    cases himpl : impls.sync s with
    | error e => rw [runStage, himpl] at hrun; simp [Except.map] at hrun
    | ok r =>
        rw [runStage, himpl] at hrun
        simp only [Except.map, Except.ok.injEq] at hrun
        subst hrun
        have h0 : stepDone s.current_step = 0 := by simp [Stage.ord] at hde; omega
        rw [h0] at f1 f2 f3 f4
        simp only [fieldsOk, stepDone]
        exact ⟨by simp, by rw [f2]; omega, by rw [f3]; omega, by rw [f4]; omega⟩
  case ANALYZE =>
    cases himpl : impls.analyze s with
    | error e => rw [runStage, himpl] at hrun; simp [Except.map] at hrun
    | ok r =>
        rw [runStage, himpl] at hrun
        simp only [Except.map, Except.ok.injEq] at hrun
        subst hrun
        have h0 : stepDone s.current_step = 1 := by simp [Stage.ord] at hde; omega
        rw [h0] at f1 f2 f3 f4
        simp only [fieldsOk, stepDone]
        exact ⟨by rw [f1]; omega, by simp, by rw [f3]; omega, by rw [f4]; omega⟩
  case PLAN =>
    cases himpl : impls.plan s with
    | error e => rw [runStage, himpl] at hrun; simp [Except.map] at hrun
    | ok r =>
        rw [runStage, himpl] at hrun
        simp only [Except.map, Except.ok.injEq] at hrun
        subst hrun
        have h0 : stepDone s.current_step = 2 := by simp [Stage.ord] at hde; omega
        rw [h0] at f1 f2 f3 f4
        simp only [fieldsOk, stepDone]
        exact ⟨by rw [f1]; omega, by rw [f2]; omega, by simp, by rw [f4]; omega⟩
  case REPORT =>
    cases himpl : impls.report s with
    | error e => rw [runStage, himpl] at hrun; simp [Except.map] at hrun
    | ok r =>
        rw [runStage, himpl] at hrun
        simp only [Except.map, Except.ok.injEq] at hrun
        subst hrun
        have h0 : stepDone s.current_step = 3 := by simp [Stage.ord] at hde; omega
        rw [h0] at f1 f2 f3 f4
        simp only [fieldsOk, stepDone]
        exact ⟨by rw [f1]; omega, by rw [f2]; omega, by rw [f3]; omega, by simp⟩

theorem runStages_trace_inv (impls : StageImpls) (stages : List Stage) :
    ∀ (m : Nat) (s : WorkflowState) (store : Store),
      contiguousFrom m stages = true →
      m ≤ stepDone s.current_step →
      WF s = true → fieldsOk s →
      ∀ x ∈ (runStages impls stages s store).trace, WF x = true ∧ fieldsOk x := by
  induction stages with
  | nil =>
      intro m s store hc hm hwf hfo x hx
      simp only [runStages, List.mem_singleton] at hx
      subst hx
      simp only [contiguousFrom, beq_iff_eq] at hc
      have hle := stepDone_le_four s hwf
      have h4 : stepDone s.current_step = 4 := by omega
      obtain ⟨f1, f2, f3, f4⟩ := hfo
      rw [h4] at f1 f2 f3 f4
      refine ⟨by simp [WF, pausedBound], ?_⟩
      simp only [fieldsOk, stepDone]
      exact ⟨by rw [f1], by rw [f2], by rw [f3], by rw [f4]⟩
  | cons st rest ih =>
      intro m s store hc hm hwf hfo x hx
      simp only [contiguousFrom, Bool.and_eq_true, beq_iff_eq] at hc
      obtain ⟨hord, hc2⟩ := hc
      have hm4 : m + 1 ≤ 4 := contiguousFrom_le_four rest (m + 1) hc2
      simp only [runStages] at hx
      by_cases hskip : st.ord ≤ stepDone s.current_step
      · rw [if_pos hskip] at hx
        exact ih (m + 1) s store hc2 (by omega) hwf hfo x hx
      · rw [if_neg hskip] at hx
        have hde : stepDone s.current_step = m := by omega
        by_cases hp : s.pause_requested
        · rw [if_pos hp] at hx
          simp only [List.mem_singleton] at hx
          subst hx
          constructor
          · simp only [WF, pausedBound, decide_eq_true_eq]
            omega
          · obtain ⟨f1, f2, f3, f4⟩ := hfo
            simp only [fieldsOk, stepDone]
            exact ⟨f1, f2, f3, f4⟩
        · rw [if_neg hp] at hx
          cases hrun : runStage impls st s with
          | error e => rw [hrun] at hx; simp at hx
          | ok s' =>
              rw [hrun] at hx
              have hwf' := WF_merge impls st s s' hrun
              have hfo' := fieldsOk_merge impls st s s' hrun (by omega) hfo
              have hstep' : stepDone s'.current_step = st.ord := by
                rw [(runStage_ok impls st s s' hrun).2.2, stepDone_marker]
              simp only [List.mem_cons] at hx
              rcases hx with rfl | hx
              · exact ⟨hwf', hfo'⟩
              · exact ih (m + 1) s' _ hc2 (by omega) hwf' hfo' x hx

theorem runStages_chain (impls : StageImpls) (stages : List Stage) :
    ∀ (m : Nat) (s : WorkflowState) (store : Store),
      contiguousFrom m stages = true →
      m ≤ stepDone s.current_step →
      WF s = true →
      List.Chain' stepUpdateOk
        (s.current_step ::
          ((runStages impls stages s store).trace.map fun x => x.current_step)) := by
  induction stages with
  | nil =>
      intro m s store hc hm hwf
      simp only [contiguousFrom, beq_iff_eq] at hc
      have hle := stepDone_le_four s hwf
      have h4 : stepDone s.current_step = 4 := by omega
      simp only [runStages, List.map_cons, List.map_nil, List.chain'_cons,
        List.chain'_singleton, and_true]
      refine ⟨by exact hle, Or.inr (Or.inr ⟨rfl, h4⟩), ?_⟩
      intro hpa
      simp only [WF, decide_eq_true_eq] at hwf
      cases hcs : s.current_step <;> simp [hcs, isPaused] at hpa
      rename_i k
      rw [hcs] at hwf h4
      simp only [pausedBound] at hwf
      simp only [stepDone] at h4
      omega
  | cons st rest ih =>
      intro m s store hc hm hwf
      simp only [contiguousFrom, Bool.and_eq_true, beq_iff_eq] at hc
      obtain ⟨hord, hc2⟩ := hc
      have hm4 : m + 1 ≤ 4 := contiguousFrom_le_four rest (m + 1) hc2
      simp only [runStages]
      by_cases hskip : st.ord ≤ stepDone s.current_step
      · rw [if_pos hskip]
        exact ih (m + 1) s store hc2 (by omega) hwf
      · rw [if_neg hskip]
        have hde : stepDone s.current_step = m := by omega
        by_cases hp : s.pause_requested
        · rw [if_pos hp]
          simp only [List.map_cons, List.map_nil, List.chain'_cons, List.chain'_singleton,
            and_true]
          refine ⟨le_of_eq (by simp [stepDone]), Or.inr (Or.inl (by simp)), ?_⟩
          intro hpa
          cases hcs : s.current_step <;> simp [hcs, isPaused] at hpa
          rename_i k
          simp [hcs, stepDone, pausedBound]
        · rw [if_neg hp]
          cases hrun : runStage impls st s with
          | error e =>
              simp [List.chain'_singleton]
          | ok s' =>
              have hmk := (runStage_ok impls st s s' hrun).2.2
              have hstep' : stepDone s'.current_step = st.ord := by
                rw [hmk, stepDone_marker]
              simp only [List.map_cons, List.chain'_cons]
              refine ⟨⟨by omega, Or.inl ⟨st, hmk, by omega⟩, ?_⟩, ?_⟩
              · intro hpa
                cases hcs : s.current_step <;> simp [hcs, isPaused] at hpa
                rename_i k
                refine Or.inr ⟨st, hmk, ?_⟩
                rw [hcs] at hde
                simp only [stepDone] at hde
                simp only [pausedBound]
                omega
              · exact ih (m + 1) s' (save_workflow_state store s'.session_id s') hc2
                  (by omega) (WF_merge impls st s s' hrun)

theorem fresh_ok (sid : String) :
    (freshState sid).session_id = sid ∧ WF (freshState sid) = true ∧
      fieldsOk (freshState sid) := by
  refine ⟨rfl, rfl, ?_⟩
  simp [fieldsOk, freshState, stepDone]

theorem put_inv (store : Store) (sid : String) (v : WorkflowState)
    (hinv : StoreInv store) (hsid : v.session_id = sid) (hwf : WF v = true)
    (hfo : fieldsOk v) : StoreInv (save_workflow_state store sid v) := by
  intro sid' s' h
  by_cases hs : sid' = sid
  · subst hs
    rw [get_put_self] at h
    obtain rfl : v = s' := by injection h
    exact ⟨hsid, hwf, hfo⟩
  · rw [get_put_ne _ _ _ _ hs] at h
    exact hinv _ _ h

theorem runStages_result_inv (impls : StageImpls) (s0 : WorkflowState) (store : Store)
    (hwf : WF s0 = true) (hfo : fieldsOk s0) (hinv : StoreInv store) :
    StoreInv (runStages impls stageOrder s0 store).store := by
  intro sid' s' hget'
  rw [runStages_store_eq] at hget'
  rcases foldl_put_get _ _ _ _ hget' with ⟨hm, hs⟩ | hold
  · obtain ⟨hwfx, hfox⟩ := runStages_trace_inv impls stageOrder 0 s0 store
      stageOrder_contiguous (Nat.zero_le _) hwf hfo s' hm
    exact ⟨hs, hwfx, hfox⟩
  · exact hinv _ _ hold

theorem run_preserves_inv (impls : StageImpls) (sid : String) (store : Store)
    (hinv : StoreInv store) :
    StoreInv (run_aura_orchestrator impls sid store).store := by
  cases hget : get_workflow_state store sid with
  | some s0 =>
      obtain ⟨hsid0, hwf0, hfo0⟩ := hinv sid s0 hget
      intro sid' s' hget'
      simp only [run_aura_orchestrator, hget] at hget'
      exact runStages_result_inv impls s0 store hwf0 hfo0 hinv sid' s' hget'
  | none =>
      intro sid' s' hget'
      simp only [run_aura_orchestrator, hget] at hget'
      obtain ⟨hfsid, hfwf, hffo⟩ := fresh_ok sid
      exact runStages_result_inv impls (freshState sid)
        (save_workflow_state store sid (freshState sid)) hfwf hffo
        (put_inv store sid (freshState sid) hinv hfsid hfwf hffo) sid' s' hget'

theorem pause_preserves_inv (sid : String) (store : Store) (hinv : StoreInv store) :
    StoreInv (requestPause sid store).1 := by
  cases hget : get_workflow_state store sid with
  | some s0 =>
      obtain ⟨hsid0, hwf0, hfo0⟩ := hinv sid s0 hget
      intro sid' s' hget'
      simp only [requestPause, hget] at hget'
      exact put_inv store sid { s0 with pause_requested := true } hinv hsid0 hwf0
        hfo0 sid' s' hget'
  | none =>
      intro sid' s' hget'
      simp only [requestPause, hget] at hget'
      exact hinv _ _ hget'

theorem reachable_inv (store : Store) (h : Reachable store) : StoreInv store := by
  induction h with
  | empty => intro sid s hget; simp [get_workflow_state] at hget
  | run impls sid _ ih => exact run_preserves_inv impls sid _ ih
  | pause sid _ ih => exact pause_preserves_inv sid _ ih

theorem contiguousFrom_ord_gt (stages : List Stage) :
    ∀ m, contiguousFrom m stages = true → ∀ st ∈ stages, m < st.ord := by
  induction stages with
  | nil => intro m _ st hst; simp at hst
  | cons st rest ih =>
      intro m hc st' hst'
      simp only [contiguousFrom, Bool.and_eq_true, beq_iff_eq] at hc
      obtain ⟨hord, hc2⟩ := hc
      rcases List.mem_cons.mp hst' with rfl | hmem
      · omega
      · have := ih (m + 1) hc2 st' hmem
        omega

theorem runStage_total (impls : StageImpls) (ht : TotalImpls impls) (st : Stage)
    (s : WorkflowState) :
    ∃ s', runStage impls st s = Except.ok s' ∧
      s'.current_step = st.marker ∧
      s'.pause_requested = s.pause_requested ∧ s'.session_id = s.session_id ∧
      (st ≠ Stage.SYNC → s'.assignments = s.assignments) ∧
      (st ≠ Stage.ANALYZE → s'.skill_profile = s.skill_profile) ∧
      (st ≠ Stage.PLAN → s'.daily_plan = s.daily_plan) ∧
      (st ≠ Stage.REPORT → s'.report = s.report) := by
  cases st
  case SYNC =>
      obtain ⟨r, hr⟩ := ht.sync s
      exact ⟨{ s with assignments := some r, current_step := Step.SYNCING },
        by simp [runStage, hr, Except.map], rfl, rfl, rfl,
        fun h => absurd rfl h, fun _ => rfl, fun _ => rfl, fun _ => rfl⟩
  case ANALYZE =>
      obtain ⟨r, hr⟩ := ht.analyze s
      exact ⟨{ s with skill_profile := some r, current_step := Step.ANALYZING },
        by simp [runStage, hr, Except.map], rfl, rfl, rfl,
        fun _ => rfl, fun h => absurd rfl h, fun _ => rfl, fun _ => rfl⟩
  case PLAN =>
      obtain ⟨r, hr⟩ := ht.plan s
      exact ⟨{ s with daily_plan := some r, current_step := Step.PLANNING },
        by simp [runStage, hr, Except.map], rfl, rfl, rfl,
        fun _ => rfl, fun _ => rfl, fun h => absurd rfl h, fun _ => rfl⟩
  case REPORT =>
      obtain ⟨r, hr⟩ := ht.report s
      exact ⟨{ s with report := some r, current_step := Step.REPORTING },
        by simp [runStage, hr, Except.map], rfl, rfl, rfl,
        fun _ => rfl, fun _ => rfl, fun _ => rfl, fun h => absurd rfl h⟩

theorem runStages_total_run (impls : StageImpls) (ht : TotalImpls impls)
    (stages : List Stage) :
    ∀ (m : Nat) (s : WorkflowState) (store : Store),
      contiguousFrom m stages = true →
      m ≤ stepDone s.current_step →
      stepDone s.current_step ≤ 4 →
      s.pause_requested = false →
      ∃ fin, (runStages impls stages s store).outcome = Except.ok fin ∧
        (runStages impls stages s store).invoked =
          stages.filter (fun st => decide (stepDone s.current_step < st.ord)) ∧
        fin.current_step = Step.COMPLETED ∧
        (1 ≤ stepDone s.current_step → fin.assignments = s.assignments) ∧
        (2 ≤ stepDone s.current_step → fin.skill_profile = s.skill_profile) ∧
        (3 ≤ stepDone s.current_step → fin.daily_plan = s.daily_plan) ∧
        (4 ≤ stepDone s.current_step → fin.report = s.report) := by
  induction stages with
  | nil =>
      intro m s store hc hm h4 hflag
      exact ⟨{ s with current_step := Step.COMPLETED }, rfl, rfl, rfl,
        fun _ => rfl, fun _ => rfl, fun _ => rfl, fun _ => rfl⟩
  | cons st rest ih =>
      intro m s store hc hm h4 hflag
      simp only [contiguousFrom, Bool.and_eq_true, beq_iff_eq] at hc
      obtain ⟨hord, hc2⟩ := hc
      have hm4 : m + 1 ≤ 4 := contiguousFrom_le_four rest (m + 1) hc2
      have hgt : ∀ st' ∈ rest, m + 1 < st'.ord := contiguousFrom_ord_gt rest (m + 1) hc2
      simp only [runStages]
      by_cases hskip : st.ord ≤ stepDone s.current_step
      · rw [if_pos hskip]
        obtain ⟨fin, ho, hi, hcs, ha, hsp, hdp, hrp⟩ :=
          ih (m + 1) s store hc2 (by omega) h4 hflag
        refine ⟨fin, ho, ?_, hcs, ha, hsp, hdp, hrp⟩
        rw [hi, List.filter_cons]
        simp only [decide_eq_true_eq]
        rw [if_neg (by omega)]
      · rw [if_neg hskip]
        have hde : stepDone s.current_step = m := by omega
        rw [if_neg (by simp [hflag])]
        obtain ⟨s', hrun, hmk, hfl, hsid, hpa, hpsk, hpd, hpr⟩ :=
          runStage_total impls ht st s
        rw [hrun]
        have hstep' : stepDone s'.current_step = st.ord := by
          rw [hmk, stepDone_marker]
        obtain ⟨fin, ho, hi, hcs, ha, hsp, hdp, hrp⟩ :=
          ih (m + 1) s' (save_workflow_state store s'.session_id s') hc2
            (by omega) (by omega) (by rw [hfl]; exact hflag)
        refine ⟨fin, ho, ?_, hcs, ?_, ?_, ?_, ?_⟩
        · simp only [List.filter_cons, decide_eq_true_eq]
          rw [if_pos (by omega)]
          simp only [List.cons.injEq, true_and]
          rw [hi]
          rw [List.filter_eq_self.mpr fun st' hst' => by
            simp only [decide_eq_true_eq]
            have := hgt st' hst'
            omega]
          rw [List.filter_eq_self.mpr fun st' hst' => by
            simp only [decide_eq_true_eq]
            have := hgt st' hst'
            omega]
        · intro h1
          rw [ha (by omega), hpa]
          intro hsync
          subst hsync
          simp [Stage.ord] at hord
          omega
        · intro h2
          rw [hsp (by omega), hpsk]
          intro hana
          subst hana
          simp [Stage.ord] at hord
          omega
        · intro h3
          rw [hdp (by omega), hpd]
          intro hplan
          subst hplan
          simp [Stage.ord] at hord
          omega
        · intro hrep
          rw [hrp (by omega), hpr]
          intro hrt
          subst hrt
          simp [Stage.ord] at hord
          omega

theorem implsGood_total : TotalImpls implsGood :=
  ⟨fun _ => ⟨_, rfl⟩, fun _ => ⟨_, rfl⟩, fun _ => ⟨_, rfl⟩, fun _ => ⟨_, rfl⟩⟩

/-- Claim C1: for every session paused after stage `k`'s checkpoint and later resumed
by invoking `run_aura_orchestrator` with the same session id, stages `1..k` are not
invoked again, stages `k+1..N` run normally (through to `COMPLETED`), and the result
fields written by stages `1..k` keep their pre-pause values in the final state. -/
theorem paused_resume_skips_committed_stages (impls : StageImpls) (store : Store)
    (sid : String) (s : WorkflowState) (k : Nat)
    (hget : get_workflow_state store sid = some s)
    (hstep : s.current_step = Step.PAUSED k) (hk : k ≤ 3)
    (hflag : s.pause_requested = false) (ht : TotalImpls impls) :
    ∃ fin, (run_aura_orchestrator impls sid store).outcome = Except.ok fin ∧
      (run_aura_orchestrator impls sid store).invoked =
        stageOrder.filter (fun st => decide (k < st.ord)) ∧
      (∀ st ∈ (run_aura_orchestrator impls sid store).invoked, k < st.ord) ∧
      fin.current_step = Step.COMPLETED ∧
      (1 ≤ k → fin.assignments = s.assignments) ∧
      (2 ≤ k → fin.skill_profile = s.skill_profile) ∧
      (3 ≤ k → fin.daily_plan = s.daily_plan) := by
  have hs : stepDone s.current_step = k := by rw [hstep]; rfl
  simp only [run_aura_orchestrator, hget]
  obtain ⟨fin, ho, hi, hcs, ha, hsp, hdp, _⟩ :=
    runStages_total_run impls ht stageOrder 0 s store stageOrder_contiguous
      (Nat.zero_le _) (by omega) hflag
  rw [hs] at hi ha hsp hdp
  refine ⟨fin, ho, hi, ?_, hcs, ha, hsp, hdp⟩
  intro st hst
  rw [hi] at hst
  have := List.of_mem_filter hst
  simpa using this

theorem paused_resume_skips_committed_stages_witness :
    ∃ fin, (run_aura_orchestrator implsGood "s1" pausedStore).outcome = Except.ok fin ∧
      (run_aura_orchestrator implsGood "s1" pausedStore).invoked =
        stageOrder.filter (fun st => decide (2 < st.ord)) ∧
      (∀ st ∈ (run_aura_orchestrator implsGood "s1" pausedStore).invoked, 2 < st.ord) ∧
      fin.current_step = Step.COMPLETED ∧
      (1 ≤ 2 → fin.assignments = pausedState.assignments) ∧
      (2 ≤ 2 → fin.skill_profile = pausedState.skill_profile) ∧
      (3 ≤ 2 → fin.daily_plan = pausedState.daily_plan) :=
  paused_resume_skips_committed_stages implsGood pausedStore "s1" pausedState 2
    (by decide) rfl (by decide) rfl implsGood_total

/-- Claim C3: when the state machine observes `pause_requested` at a stage boundary it
checkpoints the state as `PAUSED` with the flag cleared, returns that state to the
caller, and invokes no stage in that invocation. -/
theorem pause_request_honored_at_boundary (impls : StageImpls) (store : Store)
    (sid : String) (s : WorkflowState)
    (hget : get_workflow_state store sid = some s) (hsid : s.session_id = sid)
    (hflag : s.pause_requested = true) (hlt : stepDone s.current_step < 4) :
    (run_aura_orchestrator impls sid store).invoked = [] ∧
    (run_aura_orchestrator impls sid store).outcome =
      Except.ok { s with current_step := Step.PAUSED (stepDone s.current_step),
                         pause_requested := false } ∧
    (run_aura_orchestrator impls sid store).trace =
      [{ s with current_step := Step.PAUSED (stepDone s.current_step),
                pause_requested := false }] ∧
    (run_aura_orchestrator impls sid store).store =
      save_workflow_state store sid
        { s with current_step := Step.PAUSED (stepDone s.current_step),
                 pause_requested := false } := by
  have hcase : stepDone s.current_step = 0 ∨ stepDone s.current_step = 1 ∨
      stepDone s.current_step = 2 ∨ stepDone s.current_step = 3 := by omega
  simp only [run_aura_orchestrator, hget]
  rcases hcase with h | h | h | h <;>
    simp [runStages, stageOrder, h, hflag, hsid, Stage.ord]

theorem pause_request_honored_at_boundary_witness :
    (run_aura_orchestrator implsGood "s1" pauseFlaggedStore).invoked = [] ∧
    (run_aura_orchestrator implsGood "s1" pauseFlaggedStore).outcome =
      Except.ok { pauseFlaggedState with
                    current_step := Step.PAUSED (stepDone pauseFlaggedState.current_step),
                    pause_requested := false } ∧
    (run_aura_orchestrator implsGood "s1" pauseFlaggedStore).trace =
      [{ pauseFlaggedState with
           current_step := Step.PAUSED (stepDone pauseFlaggedState.current_step),
           pause_requested := false }] ∧
    (run_aura_orchestrator implsGood "s1" pauseFlaggedStore).store =
      save_workflow_state pauseFlaggedStore "s1"
        { pauseFlaggedState with
            current_step := Step.PAUSED (stepDone pauseFlaggedState.current_step),
            pause_requested := false } :=
  pause_request_honored_at_boundary implsGood pauseFlaggedStore "s1" pauseFlaggedState
    (by decide) rfl rfl (by decide)

/-- Claim C4: within one invocation on a session, every update of the persisted
`current_step` moves strictly forward in the fixed stage order or to
`PAUSED`/`COMPLETED`, never backward, and the only moves out of a `PAUSED` marker are
re-pausing at the same point or committing the next pending stage. -/
theorem current_step_never_regresses (impls : StageImpls) (sid : String) (store : Store)
    (h : Option.all WF (get_workflow_state store sid) = true) :
    List.Chain' stepUpdateOk (runChain impls sid store) := by
  cases hget : get_workflow_state store sid with
  | some s =>
      have hwf : WF s = true := by rw [hget] at h; simpa [Option.all] using h
      simp only [runChain, hget, run_aura_orchestrator]
      exact runStages_chain impls stageOrder 0 s store stageOrder_contiguous
        (Nat.zero_le _) hwf
  | none =>
      simp only [runChain, hget, run_aura_orchestrator, List.map_cons]
      exact runStages_chain impls stageOrder 0 (freshState sid)
        (save_workflow_state store sid (freshState sid)) stageOrder_contiguous
        (Nat.zero_le _) rfl

theorem current_step_never_regresses_witness :
    List.Chain' stepUpdateOk (runChain implsGood "s1" pausedStore) :=
  current_step_never_regresses implsGood "s1" pausedStore (by decide)

/-- Claim C5: when no state exists under the given session id, the orchestrator
constructs a fresh `NOT_STARTED` state and checkpoints it before running any stage, so
the state is retrievable even if the first stage fails. -/
theorem fresh_session_bootstrap (impls : StageImpls) (store : Store) (sid : String)
    (hget : get_workflow_state store sid = none) :
    (run_aura_orchestrator impls sid store).trace.head? = some (freshState sid) ∧
    (freshState sid).current_step = Step.NOT_STARTED ∧
    (∃ v, get_workflow_state (run_aura_orchestrator impls sid store).store sid = some v) ∧
    (∀ e, impls.sync (freshState sid) = Except.error e →
      (run_aura_orchestrator impls sid store).store =
          save_workflow_state store sid (freshState sid) ∧
        get_workflow_state (run_aura_orchestrator impls sid store).store sid =
          some (freshState sid) ∧
        (run_aura_orchestrator impls sid store).outcome = Except.error e) := by
  refine ⟨?_, rfl, ?_, ?_⟩
  · simp [run_aura_orchestrator, hget]
  · simp only [run_aura_orchestrator, hget]
    rw [runStages_store_eq]
    exact foldl_put_get_isSome _ _ _ (freshState sid) (by rw [get_put_self])
      fun x hx => by rw [runStages_trace_session_id impls stageOrder _ _ x hx]; rfl
  · intro e he
    simp only [run_aura_orchestrator, hget]
    have h1 : runStage impls Stage.SYNC (freshState sid) = Except.error e := by
      simp [runStage, he, Except.map]
    simp only [stageOrder, runStages, freshState, stepDone, Stage.ord]
    norm_num
    rw [show (freshState sid : WorkflowState) =
      ⟨sid, Step.NOT_STARTED, none, none, none, none, false⟩ from rfl] at h1
    simp [h1, get_put_self]

theorem fresh_session_bootstrap_witness :
    (run_aura_orchestrator implsPlanFails "s9" []).trace.head? =
        some (freshState "s9") ∧
    (freshState "s9").current_step = Step.NOT_STARTED ∧
    (∃ v, get_workflow_state (run_aura_orchestrator implsPlanFails "s9" []).store "s9" =
      some v) ∧
    (∀ e, implsPlanFails.sync (freshState "s9") = Except.error e →
      (run_aura_orchestrator implsPlanFails "s9" []).store =
          save_workflow_state [] "s9" (freshState "s9") ∧
        get_workflow_state (run_aura_orchestrator implsPlanFails "s9" []).store "s9" =
          some (freshState "s9") ∧
        (run_aura_orchestrator implsPlanFails "s9" []).outcome = Except.error e) :=
  fresh_session_bootstrap implsPlanFails [] "s9" rfl

/-- Claim C6: in every persisted `WorkflowState` reachable through the state machine's
operations, each stage's result field is present if and only if `current_step` is at
or beyond that stage in the stage order. -/
theorem result_fields_present_iff_committed (store : Store) (h : Reachable store)
    (sid : String) (s : WorkflowState)
    (hget : get_workflow_state store sid = some s) : fieldsOk s :=
  (reachable_inv store h sid s hget).2.2

theorem result_fields_present_iff_committed_witness : fieldsOk completedState :=
  result_fields_present_iff_committed (run_aura_orchestrator implsGood "s1" []).store
    (Reachable.run implsGood "s1" Reachable.empty) "s1" completedState (by decide)

/-- Claim C7: re-invoking the orchestrator on a session whose persisted
`current_step` is `COMPLETED` invokes no stage, returns the stored final state
unchanged, and leaves the store exactly as it was. -/
theorem completed_rerun_is_noop (impls : StageImpls) (store : Store) (sid : String)
    (s : WorkflowState) (hget : get_workflow_state store sid = some s)
    (hsid : s.session_id = sid) (hstep : s.current_step = Step.COMPLETED) :
    (run_aura_orchestrator impls sid store).invoked = [] ∧
    (run_aura_orchestrator impls sid store).outcome = Except.ok s ∧
    (run_aura_orchestrator impls sid store).store = store := by
  have hs : ({ s with current_step := Step.COMPLETED } : WorkflowState) = s := by
    cases s
    simp_all
  simp only [run_aura_orchestrator, hget]
  have hred : runStages impls stageOrder s store =
      ⟨save_workflow_state store s.session_id s, [s], [], Except.ok s⟩ := by
    simp [runStages, stageOrder, hstep, stepDone, Stage.ord, hs]
  rw [hred, hsid, put_self_eq store sid s hget]
  exact ⟨rfl, rfl, rfl⟩

theorem completed_rerun_is_noop_witness :
    (run_aura_orchestrator implsGood "s1" completedStore).invoked = [] ∧
    (run_aura_orchestrator implsGood "s1" completedStore).outcome =
      Except.ok completedState ∧
    (run_aura_orchestrator implsGood "s1" completedStore).store = completedStore :=
  completed_rerun_is_noop implsGood completedStore "s1" completedState (by decide)
    rfl rfl

/-- Claim C2, counterexample to "a subsequent successful invocation advances exactly
one step": with the session stored at `ANALYZING` (two stages committed) and the
`PLAN` stage failing, the failed call leaves the store untouched, but the subsequent
successful invocation invokes two stages (`PLAN` and `REPORT`) and moves the
persisted `current_step` from `ANALYZING` (2 stages committed) to `COMPLETED`
(4 stages committed) — an advance of two stages in a single call, not one. -/
theorem stage_error_retry_not_one_step :
    (run_aura_orchestrator implsPlanFails "s1" analyzedStore).store = analyzedStore ∧
    (run_aura_orchestrator implsPlanFails "s1" analyzedStore).outcome =
      Except.error ⟨"plan failed"⟩ ∧
    (run_aura_orchestrator implsGood "s1" analyzedStore).invoked =
      [Stage.PLAN, Stage.REPORT] ∧
    (run_aura_orchestrator implsGood "s1" analyzedStore).invoked.length ≠ 1 ∧
    (run_aura_orchestrator implsGood "s1" analyzedStore).outcome =
      Except.ok completedState ∧
    stepDone completedState.current_step =
      stepDone analyzedState.current_step + 2 := by
  refine ⟨by decide, rfl, by decide, by decide, rfl, by decide⟩

/-- Claim C2 as amended: when the first pending stage `k` of a session raises
`StageError`, the orchestrator writes no checkpoint and does not advance
`current_step` (the store after the failed call equals the store before it), and the
error is propagated to the caller; a subsequent successful invocation re-attempts
exactly stage `k` first (no earlier, already-committed stage is re-invoked and stage
`k` is not skipped) and then continues through the remaining stages to
`COMPLETED`. -/
theorem stage_error_no_advance (impls impls2 : StageImpls) (store : Store)
    (sid : String) (s : WorkflowState) (st : Stage) (e : StageError)
    (hget : get_workflow_state store sid = some s)
    (hflag : s.pause_requested = false)
    (hord : st.ord = stepDone s.current_step + 1)
    (herr : runStage impls st s = Except.error e)
    (ht : TotalImpls impls2) :
    ((run_aura_orchestrator impls sid store).outcome = Except.error e ∧
      (run_aura_orchestrator impls sid store).store = store ∧
      (run_aura_orchestrator impls sid store).trace = [] ∧
      (run_aura_orchestrator impls sid store).invoked = [st]) ∧
    ((run_aura_orchestrator impls2 sid store).invoked.head? = some st ∧
      (∀ st' ∈ (run_aura_orchestrator impls2 sid store).invoked,
        stepDone s.current_step < st'.ord) ∧
      ∃ fin, (run_aura_orchestrator impls2 sid store).outcome = Except.ok fin ∧
        fin.current_step = Step.COMPLETED) := by
  have hle : stepDone s.current_step ≤ 3 := by
    have : st.ord ≤ 4 := by cases st <;> simp [Stage.ord]
    omega
  constructor
  · simp only [run_aura_orchestrator, hget]
    have hd : stepDone s.current_step = st.ord - 1 := by omega
    cases st <;>
      · simp only [Stage.ord] at hd
        simp [runStages, stageOrder, hd, hflag, Stage.ord, herr]
  · obtain ⟨fin, ho, hi, hcs, _, _, _, _⟩ :=
      runStages_total_run impls2 ht stageOrder 0 s store stageOrder_contiguous
        (Nat.zero_le _) (by omega) hflag
    simp only [run_aura_orchestrator, hget]
    refine ⟨?_, ?_, fin, ho, hcs⟩
    · rw [hi]
      have hd : stepDone s.current_step = st.ord - 1 := by omega
      cases st <;>
        · simp only [Stage.ord] at hd
          simp [stageOrder, hd, Stage.ord]
    · intro st' hst'
      rw [hi] at hst'
      have := List.of_mem_filter hst'
      simpa using this

theorem stage_error_no_advance_witness :
    ((run_aura_orchestrator implsPlanFails "s1" analyzedStore).outcome =
        Except.error ⟨"plan failed"⟩ ∧
      (run_aura_orchestrator implsPlanFails "s1" analyzedStore).store = analyzedStore ∧
      (run_aura_orchestrator implsPlanFails "s1" analyzedStore).trace = [] ∧
      (run_aura_orchestrator implsPlanFails "s1" analyzedStore).invoked =
        [Stage.PLAN]) ∧
    ((run_aura_orchestrator implsGood "s1" analyzedStore).invoked.head? =
        some Stage.PLAN ∧
      (∀ st' ∈ (run_aura_orchestrator implsGood "s1" analyzedStore).invoked,
        stepDone analyzedState.current_step < st'.ord) ∧
      ∃ fin, (run_aura_orchestrator implsGood "s1" analyzedStore).outcome =
          Except.ok fin ∧
        fin.current_step = Step.COMPLETED) :=
  stage_error_no_advance implsPlanFails implsGood analyzedStore "s1" analyzedState
    Stage.PLAN ⟨"plan failed"⟩ (by decide) rfl (by decide) rfl implsGood_total

end Aura

namespace AuraRoute

/-- Claim C8: the `/api/aura` proxy `POST` handler forwards the backend's JSON body
unchanged (status 200) when the backend fetch resolves `ok`; answers status 500 with
`{error: "Aura backend failed", details: <backend text>}` when the backend responds
non-ok, whatever the backend's own status code; and answers status 500 with
`{error: "Internal Server Error", details: <error string>}` when body parsing, the
fetch, or JSON decoding throws. -/
theorem aura_proxy_post_behavior (body e : String) (res : BackendResponse) :
    (res.ok = true → ∀ d, res.jsonBody = Except.ok d →
      POST (Except.ok body) (Except.ok res) = ⟨JsValue.payload d, 200⟩) ∧
    (res.ok = false →
      POST (Except.ok body) (Except.ok res) =
        ⟨JsValue.errObj "Aura backend failed" res.text, 500⟩) ∧
    (∀ je, res.jsonBody = Except.error je → res.ok = true →
      POST (Except.ok body) (Except.ok res) =
        ⟨JsValue.errObj "Internal Server Error" je, 500⟩) ∧
    (POST (Except.ok body) (Except.error e) =
      ⟨JsValue.errObj "Internal Server Error" e, 500⟩) ∧
    (∀ f, POST (Except.error e) f =
      ⟨JsValue.errObj "Internal Server Error" e, 500⟩) := by
  refine ⟨?_, ?_, ?_, rfl, fun f => rfl⟩
  · intro hok d hd
    simp [POST, hok, hd]
  · intro hok
    simp [POST, hok]
  · intro je hj hok
    simp [POST, hok, hj]

theorem aura_proxy_post_behavior_witness :
    POST (Except.ok "req") (Except.ok ⟨false, 502, "boom", Except.ok "x"⟩) =
      ⟨JsValue.errObj "Aura backend failed" "boom", 500⟩ :=
  (aura_proxy_post_behavior "req" "oops" ⟨false, 502, "boom", Except.ok "x"⟩).2.1 rfl

end AuraRoute

namespace Dashboard

/-- Claim C9: an assignment whose `due` field is absent or equals the exact string
"No due date" is never classified old by `isOld`, for every threshold, clock value
and date parser, and therefore never appears in the Past Due list. -/
theorem no_due_date_never_past_due (pastDueDays nowMs : Rat)
    (parseDate : String → Option Rat) :
    (∀ dateStr, dateStr = none ∨ dateStr = some "No due date" →
      isOld pastDueDays nowMs parseDate dateStr = false) ∧
    (∀ (assignments : List Assignment) (a : Assignment),
      a ∈ oldAssignments pastDueDays nowMs parseDate assignments →
      a.due ≠ none ∧ a.due ≠ some "No due date") := by
  have hbase : ∀ dateStr, dateStr = none ∨ dateStr = some "No due date" →
      isOld pastDueDays nowMs parseDate dateStr = false := by
    rintro dateStr (rfl | rfl)
    · rfl
    · simp [isOld]
  refine ⟨hbase, ?_⟩
  intro assignments a ha
  simp only [oldAssignments] at ha
  have hmem := List.of_mem_filter ha
  refine ⟨fun hd => ?_, fun hd => ?_⟩
  · rw [hbase a.due (Or.inl hd)] at hmem
    cases hmem
  · rw [hbase a.due (Or.inr hd)] at hmem
    cases hmem

theorem no_due_date_never_past_due_witness :
    isOld 7 1000000000 demoParse none = false ∧
    isOld 7 1000000000 demoParse (some "No due date") = false :=
  ⟨(no_due_date_never_past_due 7 1000000000 demoParse).1 none (Or.inl rfl),
   (no_due_date_never_past_due 7 1000000000 demoParse).1 (some "No due date")
     (Or.inr rfl)⟩

/-- Claim C10: the three derived dashboard lists partition the assignment list —
every assignment lands in exactly one of `currentAssignments`, `noDueAssignments`,
`oldAssignments` — because `hasNoDueDate a` implies `isOld a.due` is false. -/
theorem assignment_lists_partition (pastDueDays nowMs : Rat)
    (parseDate : String → Option Rat) (assignments : List Assignment)
    (a : Assignment) (ha : a ∈ assignments) :
    (hasNoDueDate a = true → isOld pastDueDays nowMs parseDate a.due = false) ∧
    ((a ∈ currentAssignments pastDueDays nowMs parseDate assignments ∧
        a ∉ noDueAssignments assignments ∧
        a ∉ oldAssignments pastDueDays nowMs parseDate assignments) ∨
      (a ∉ currentAssignments pastDueDays nowMs parseDate assignments ∧
        a ∈ noDueAssignments assignments ∧
        a ∉ oldAssignments pastDueDays nowMs parseDate assignments) ∨
      (a ∉ currentAssignments pastDueDays nowMs parseDate assignments ∧
        a ∉ noDueAssignments assignments ∧
        a ∈ oldAssignments pastDueDays nowMs parseDate assignments)) := by
  have himp : hasNoDueDate a = true →
      isOld pastDueDays nowMs parseDate a.due = false := by
    intro h
    cases hdue : a.due with
    | none => rfl
    | some d =>
        rw [hasNoDueDate] at h
        rw [hdue] at h
        simp only [isOld, hdue]
        rw [if_pos h]
  refine ⟨himp, ?_⟩
  simp only [currentAssignments, noDueAssignments, oldAssignments, List.mem_filter]
  by_cases hn : hasNoDueDate a = true
  · have ho := himp hn
    right; left
    simp [ha, hn, ho]
  · by_cases ho : isOld pastDueDays nowMs parseDate a.due = true
    · right; right
      simp [ha, hn, ho]
    · left
      simp [ha, hn, ho]

theorem assignment_lists_partition_witness :
    (hasNoDueDate demoNoDue = true →
      isOld 7 1000000000 demoParse demoNoDue.due = false) ∧
    ((demoNoDue ∈ currentAssignments 7 1000000000 demoParse demoAssignments ∧
        demoNoDue ∉ noDueAssignments demoAssignments ∧
        demoNoDue ∉ oldAssignments 7 1000000000 demoParse demoAssignments) ∨
      (demoNoDue ∉ currentAssignments 7 1000000000 demoParse demoAssignments ∧
        demoNoDue ∈ noDueAssignments demoAssignments ∧
        demoNoDue ∉ oldAssignments 7 1000000000 demoParse demoAssignments) ∨
      (demoNoDue ∉ currentAssignments 7 1000000000 demoParse demoAssignments ∧
        demoNoDue ∉ noDueAssignments demoAssignments ∧
        demoNoDue ∈ oldAssignments 7 1000000000 demoParse demoAssignments)) :=
  assignment_lists_partition 7 1000000000 demoParse demoAssignments demoNoDue
    (by decide)

end Dashboard
